import Mathlib

/-!
Verification of `contain-rs/bit-set`, module `src/bitidx.rs`: a typed
bit-set wrapper (`bitidx::BitSet<T, B>`) around the engine set
`bit_set::BitSet<B>` (referred to in the source as `super::BitSet`),
which itself wraps a packed bit vector `bit_vec::BitVec<B>`.

The engine (`super::BitSet` / `BitVec`) is not part of the shipped
source under `src/`; following the specification's description of the
consumed engine interface (spec section 6), it is modelled here as
`RawBitVec` / `RawBitSet`.  The `bitidx` layer (`BitIdx`, the typed
`BitSet`, its iterators and trait impls) is translated directly from
`src/bitidx.rs`.

Rust trait bounds `T: Into<BitIdx>` / `T: From<BitIdx>` are modelled
by passing the two conversion functions explicitly (`into : T → BitIdx`,
`ofIdx : BitIdx → T`).
-/

namespace BitSetVerify

/-! ### Bit-sequence helpers

A packed bit vector is modelled by its logical sequence of bits, a
`List Bool`.  `nth l i` reads bit `i` (false beyond the end), and
`countTrue l` counts the set bits. -/

def nth : List Bool → Nat → Bool
  | [], _ => false
  | b :: _, 0 => b
  | _ :: l, n + 1 => nth l n

def countTrue : List Bool → Nat
  | [] => 0
  | b :: l => (if b then 1 else 0) + countTrue l

theorem nth_eq_false_of_le : ∀ {l : List Bool} {i : Nat},
    l.length ≤ i → nth l i = false
  | [], _, _ => rfl
  | _ :: _, 0, h => absurd h (by simp)
  | _ :: l, n + 1, h => nth_eq_false_of_le (l := l) (by simpa using h)

theorem lt_length_of_nth_true {l : List Bool} {i : Nat}
    (h : nth l i = true) : i < l.length := by
  by_contra hc
  rw [nth_eq_false_of_le (Nat.le_of_not_lt hc)] at h
  exact Bool.false_ne_true h

theorem nth_set_self : ∀ (l : List Bool) (i : Nat) (b : Bool),
    i < l.length → nth (l.set i b) i = b
  | [], _, _, h => absurd h (by simp)
  | _ :: _, 0, _, _ => rfl
  | _ :: l, n + 1, b, h => nth_set_self l n b (by simpa using h)

theorem nth_set_ne : ∀ (l : List Bool) (i j : Nat) (b : Bool),
    j ≠ i → nth (l.set i b) j = nth l j
  | [], _, _, _, _ => rfl
  | _ :: _, 0, 0, _, h => absurd rfl h
  | _ :: _, 0, _ + 1, _, _ => rfl
  | _ :: _, _ + 1, 0, _, _ => rfl
  | _ :: l, i + 1, j + 1, b, h =>
    nth_set_ne l i j b (fun he => h (congrArg Nat.succ he))

theorem nth_replicate_false : ∀ (k i : Nat),
    nth (List.replicate k false) i = false
  | 0, _ => rfl
  | _ + 1, 0 => rfl
  | k + 1, n + 1 => nth_replicate_false k n

theorem nth_append_replicate_false : ∀ (l : List Bool) (k i : Nat),
    nth (l ++ List.replicate k false) i = nth l i
  | [], k, i => by simpa using nth_replicate_false k i
  | _ :: _, _, 0 => rfl
  | _ :: l, k, n + 1 => nth_append_replicate_false l k n

theorem countTrue_replicate_false : ∀ k : Nat,
    countTrue (List.replicate k false) = 0
  | 0 => rfl
  | k + 1 => by
    simpa [List.replicate, countTrue] using countTrue_replicate_false k

theorem countTrue_append : ∀ l l' : List Bool,
    countTrue (l ++ l') = countTrue l + countTrue l'
  | [], _ => by simp [countTrue]
  | b :: l, l' => by
    simp [countTrue, countTrue_append l l', Nat.add_assoc]

theorem countTrue_set : ∀ (l : List Bool) (i : Nat) (b : Bool),
    i < l.length →
    countTrue (l.set i b) + (if nth l i then 1 else 0)
      = countTrue l + (if b then 1 else 0)
  | [], _, _, h => absurd h (by simp)
  | x :: l, 0, b, _ => by
    simp only [List.set, countTrue, nth]
    omega
  | x :: l, n + 1, b, h => by
    have ih := countTrue_set l n b (by simpa using h)
    simp only [List.set, countTrue, nth]
    omega

/-- Combine two bit sequences pointwise with `f`, extending the shorter
one with `false` bits so no set bit of either operand is lost. -/
def zipWithPad (f : Bool → Bool → Bool) : List Bool → List Bool → List Bool
  | [], ys => ys.map (f false)
  | x :: xs, [] => f x false :: zipWithPad f xs []
  | x :: xs, y :: ys => f x y :: zipWithPad f xs ys

theorem nth_map_pad (f : Bool → Bool → Bool) (hf : f false false = false) :
    ∀ (ys : List Bool) (i : Nat), nth (ys.map (f false)) i = f false (nth ys i)
  | [], _ => by simp [nth, hf]
  | _ :: _, 0 => rfl
  | _ :: ys, n + 1 => nth_map_pad f hf ys n

theorem nth_zipWithPad (f : Bool → Bool → Bool) (hf : f false false = false) :
    ∀ (xs ys : List Bool) (i : Nat),
      nth (zipWithPad f xs ys) i = f (nth xs i) (nth ys i)
  | [], ys, i => by
    rw [zipWithPad]
    exact nth_map_pad f hf ys i
  | x :: xs, [], 0 => by simp [zipWithPad, nth]
  | x :: xs, [], n + 1 => by
    simpa [zipWithPad, nth] using nth_zipWithPad f hf xs [] n
  | x :: xs, y :: ys, 0 => by simp [zipWithPad, nth]
  | x :: xs, y :: ys, n + 1 => by
    simpa [zipWithPad, nth] using nth_zipWithPad f hf xs ys n

/-! ### The bit-vector engine, modelled from the spec -/

/-- Modelled from the spec: `bit_vec::BitVec`, the external packed
bit-vector engine (not under `src/`), reduced to its logical content:
the sequence of bits it stores, bit `i` of the set being bit `i` of the
sequence. -/
structure RawBitVec where
  bits : List Bool
deriving DecidableEq

/-- Modelled from the spec: `bit_set::BitSet` (the `super::BitSet` the
source wraps, not under `src/`): a set of `Nat` indices represented by
a `RawBitVec`, index `i` being a member iff bit `i` is set. -/
structure RawBitSet where
  vec : RawBitVec
deriving DecidableEq

namespace RawBitSet

/-- Modelled from the spec: default/empty construction. -/
def empty : RawBitSet := ⟨⟨[]⟩⟩

/-- Modelled from the spec: single-index membership test. -/
def contains (s : RawBitSet) (i : Nat) : Bool := nth s.vec.bits i

/-- Modelled from the spec: single-index insertion; returns whether the
index was newly added (false if already present), growing the backing
storage as needed so bit `i` can be set. -/
def insert (s : RawBitSet) (i : Nat) : Bool × RawBitSet :=
  if s.contains i then (false, s)
  else
    (true,
      ⟨⟨(s.vec.bits ++ List.replicate (i + 1 - s.vec.bits.length) false).set
        i true⟩⟩)

/-- Modelled from the spec: single-index removal; returns whether the
index was actually present and removed. -/
def remove (s : RawBitSet) (i : Nat) : Bool × RawBitSet :=
  if s.contains i then (true, ⟨⟨s.vec.bits.set i false⟩⟩)
  else (false, s)

/-- Modelled from the spec: length = count of set bits. -/
def len (s : RawBitSet) : Nat := countTrue s.vec.bits

/-- Modelled from the spec: emptiness check. -/
def is_empty (s : RawBitSet) : Bool := s.len == 0

/-- Modelled from the spec: clear-all — every bit becomes unset (the
backing storage keeps its width). -/
def clear (s : RawBitSet) : RawBitSet :=
  ⟨⟨List.replicate s.vec.bits.length false⟩⟩

/-- Modelled from the spec: in-place union — the receiver's bits are
combined bit-for-bit (or) with the other operand's. -/
def union_with (s other : RawBitSet) : RawBitSet :=
  ⟨⟨zipWithPad (fun a b => a || b) s.vec.bits other.vec.bits⟩⟩

/-- Modelled from the spec: in-place intersection (bit-for-bit and). -/
def intersect_with (s other : RawBitSet) : RawBitSet :=
  ⟨⟨zipWithPad (fun a b => a && b) s.vec.bits other.vec.bits⟩⟩

/-- Modelled from the spec: in-place difference (bit-for-bit
self-and-not-other). -/
def difference_with (s other : RawBitSet) : RawBitSet :=
  ⟨⟨zipWithPad (fun a b => a && !b) s.vec.bits other.vec.bits⟩⟩

/-- Modelled from the spec: in-place symmetric difference (bit-for-bit
xor). -/
def symmetric_difference_with (s other : RawBitSet) : RawBitSet :=
  ⟨⟨zipWithPad (fun a b => xor a b) s.vec.bits other.vec.bits⟩⟩

/-- Modelled from the spec: the raw ascending-index membership iterator,
as the list of indices it yields. -/
def toList (s : RawBitSet) : List Nat :=
  (List.range s.vec.bits.length).filter (fun i => nth s.vec.bits i)

end RawBitSet

/-! ### Equality and ordering of the engine, modelled from the spec -/

/-- Little-endian numeric value of one storage word's bits (bit `j`
inside a word carries weight `2 ^ j`). -/
def wordVal : List Bool → Nat
  | [] => 0
  | b :: l => (if b then 1 else 0) + 2 * wordVal l

/-- Split a bit sequence into consecutive storage words of `w` bits
(the final word may be shorter). -/
def chunksOf (w : Nat) (l : List Bool) : List (List Bool) :=
  if w = 0 ∨ l = [] then []
  else l.take w :: chunksOf w (l.drop w)
termination_by l.length
decreasing_by
  rename_i h
  push_neg at h
  have h1 : 0 < w := Nat.pos_of_ne_zero h.1
  have h2 : 0 < l.length := List.length_pos.mpr h.2
  simpa using Nat.sub_lt h2 h1

/-- Lexicographic comparison of word sequences (a strict prefix is
smaller), as derived ordering on vectors behaves. -/
def lexCmp : List Nat → List Nat → Ordering
  | [], [] => .eq
  | [], _ :: _ => .lt
  | _ :: _, [] => .gt
  | x :: xs, y :: ys =>
    match compare x y with
    | .eq => lexCmp xs ys
    | o => o

/-- Modelled from the spec: the bit vector's total order — lexicographic
over the raw storage words of width `w`. -/
def RawBitVec.cmp (w : Nat) (a b : RawBitVec) : Ordering :=
  lexCmp ((chunksOf w a.bits).map wordVal) ((chunksOf w b.bits).map wordVal)

/-- Modelled from the spec: engine-set equality — two sets are equal iff
their underlying bit vectors are equal. -/
def RawBitSet.beq (a b : RawBitSet) : Bool := a.vec == b.vec

/-- Modelled from the spec: the engine set's order is its underlying bit
vector's order. -/
def RawBitSet.cmp (w : Nat) (a b : RawBitSet) : Ordering :=
  RawBitVec.cmp w a.vec b.vec

/-! ### The `bitidx` layer, translated from `src/bitidx.rs` -/

/-- Source `BitIdx` (src/bitidx.rs line 51): a simple wrapper around a `usize`
bit index. -/
structure BitIdx where
  val : Nat
deriving DecidableEq

/-- Source `impl Into<BitIdx> for usize` (line 53): wraps the integer. -/
def usizeIntoBitIdx (n : Nat) : BitIdx := ⟨n⟩

/-- Source `impl Into<BitIdx> for &usize` (line 57): dereferences and wraps. -/
def usizeRefIntoBitIdx (n : Nat) : BitIdx := ⟨n⟩

/-- Source `impl From<BitIdx> for usize` (line 61): unwraps to the integer. -/
def usizeFromBitIdx (b : BitIdx) : Nat := b.val

namespace bitidx

/-- Source `bitidx::BitSet<T, B>` (line 78): a tuple struct of the engine set
and a `PhantomData<T>` marker; `T` is phantom, no value of `T` is
stored. -/
structure BitSet (T : Type) where
  inner : RawBitSet
deriving DecidableEq

/-- Source `BitSet::new` / `Default` (lines 83, 237-239): empty engine set. -/
def BitSet.empty (T : Type) : BitSet T := ⟨RawBitSet.empty⟩

/-- Source `BitSet::from_bit_vec` (lines 90-93): wraps a raw bit vector. -/
def BitSet.from_bit_vec (T : Type) (v : RawBitVec) : BitSet T := ⟨⟨v⟩⟩

/-- Source `BitSet::into_bit_vec` (lines 111-112): returns the underlying bit
vector. -/
def BitSet.into_bit_vec {T : Type} (s : BitSet T) : RawBitVec :=
  s.inner.vec

/-- Source `BitSet::contains` (lines 197-201): converts the value via
`Into<BitIdx>` and delegates to the engine. -/
def BitSet.contains {T : Type} (into : T → BitIdx) (s : BitSet T)
    (v : T) : Bool :=
  s.inner.contains (into v).val

/-- Source `BitSet::insert` (lines 203-207): converts the value and delegates;
the pair is (returned bool, mutated receiver). -/
def BitSet.insert {T : Type} (into : T → BitIdx) (s : BitSet T)
    (v : T) : Bool × BitSet T :=
  ((s.inner.insert (into v).val).1, ⟨(s.inner.insert (into v).val).2⟩)

/-- Source `BitSet::remove` (lines 209-213): converts the value and delegates. -/
def BitSet.remove {T : Type} (into : T → BitIdx) (s : BitSet T)
    (v : T) : Bool × BitSet T :=
  ((s.inner.remove (into v).val).1, ⟨(s.inner.remove (into v).val).2⟩)

/-- Source `BitSet::len` (lines 140-141). -/
def BitSet.len {T : Type} (s : BitSet T) : Nat := s.inner.len

/-- Source `BitSet::is_empty` (lines 143-144). -/
def BitSet.is_empty {T : Type} (s : BitSet T) : Bool := s.inner.is_empty

/-- Source `BitSet::clear` (lines 146-147). -/
def BitSet.clear {T : Type} (s : BitSet T) : BitSet T := ⟨s.inner.clear⟩

/-- Source `BitSet::union_with` (lines 120-123): delegates to the engine on the
two inner sets; only the receiver is replaced. -/
def BitSet.union_with {T : Type} (s other : BitSet T) : BitSet T :=
  ⟨s.inner.union_with other.inner⟩

/-- Source `BitSet::intersect_with` (lines 125-128). -/
def BitSet.intersect_with {T : Type} (s other : BitSet T) : BitSet T :=
  ⟨s.inner.intersect_with other.inner⟩

/-- Source `BitSet::difference_with` (lines 130-133). -/
def BitSet.difference_with {T : Type} (s other : BitSet T) : BitSet T :=
  ⟨s.inner.difference_with other.inner⟩

/-- Source `BitSet::symmetric_difference_with` (lines 135-138). -/
def BitSet.symmetric_difference_with {T : Type} (s other : BitSet T) :
    BitSet T :=
  ⟨s.inner.symmetric_difference_with other.inner⟩

/-- Source `BitSet::iter` with the `MapBitIdx` adapter (lines 168-171 and
226-235): the engine's raw ascending-index iterator, each yielded index
`v` mapped to `T::from(BitIdx(v))`. -/
def BitSet.iterList {T : Type} (ofIdx : BitIdx → T) (s : BitSet T) :
    List T :=
  s.inner.toList.map (fun i => ofIdx ⟨i⟩)

/-- Source `impl Extend for BitSet` (lines 259-267): inserts each element of
the sequence in order. -/
def BitSet.extendList {T : Type} (into : T → BitIdx) (s : BitSet T)
    (l : List T) : BitSet T :=
  l.foldl (fun acc v => (acc.insert into v).2) s

/-- Source `impl FromIterator for BitSet` (lines 249-257): starts from
`Self::default()` and extends with the sequence. -/
def BitSet.from_iter {T : Type} (into : T → BitIdx) (l : List T) :
    BitSet T :=
  (BitSet.empty T).extendList into l

/-- The derived `PartialEq` (line 77): field-wise equality of the tuple
struct — the engine field compared by the engine's equality, the
`PhantomData` field always equal. -/
def BitSet.beq {T : Type} (a b : BitSet T) : Bool :=
  RawBitSet.beq a.inner b.inner && true

/-- The derived `Ord` (line 77): field-wise lexicographic comparison of
the tuple struct — the engine field first, then the `PhantomData` field
(always `Equal`). `w` is the storage word width of `B`. -/
def BitSet.cmp {T : Type} (w : Nat) (a b : BitSet T) : Ordering :=
  match RawBitSet.cmp w a.inner b.inner with
  | .eq => .eq
  | o => o

end bitidx

/-! ### Engine-level lemmas -/

namespace RawBitSet

theorem contains_empty (i : Nat) : empty.contains i = false := rfl

theorem insert_fst (s : RawBitSet) (i : Nat) :
    (s.insert i).1 = !s.contains i := by
  unfold insert
  by_cases h : s.contains i = true <;> simp [h]

theorem insert_of_contains {s : RawBitSet} {i : Nat}
    (h : s.contains i = true) : s.insert i = (false, s) := by
  unfold insert
  simp [h]

theorem length_grow (s : RawBitSet) (i : Nat) :
    i < (s.vec.bits ++ List.replicate (i + 1 - s.vec.bits.length)
      false).length := by
  simp only [List.length_append, List.length_replicate]
  omega

theorem contains_insert (s : RawBitSet) (i j : Nat) :
    (s.insert i).2.contains j
      = if j = i then true else s.contains j := by
  unfold insert
  by_cases h : s.contains i = true
  · by_cases hj : j = i
    · subst hj; simp [h]
    · simp [h, hj]
  · simp only [h, Bool.false_eq_true, if_false]
    unfold contains
    by_cases hj : j = i
    · subst hj
      rw [if_pos rfl]
      exact nth_set_self _ _ _ (length_grow s j)
    · rw [if_neg hj, nth_set_ne _ _ _ _ hj, nth_append_replicate_false]

theorem len_insert_of_not_contains {s : RawBitSet} {i : Nat}
    (h : s.contains i = false) : (s.insert i).2.len = s.len + 1 := by
  unfold insert
  simp only [h, Bool.false_eq_true, if_false, len]
  have hb := countTrue_set
    (s.vec.bits ++ List.replicate (i + 1 - s.vec.bits.length) false) i true
    (length_grow s i)
  rw [nth_append_replicate_false] at hb
  have hn : nth s.vec.bits i = false := h
  rw [hn] at hb
  simp only [if_false, if_true, Bool.false_eq_true] at hb
  rw [countTrue_append, countTrue_replicate_false] at hb
  omega

theorem remove_of_not_contains {s : RawBitSet} {i : Nat}
    (h : s.contains i = false) : s.remove i = (false, s) := by
  unfold remove
  simp [h]

theorem remove_fst (s : RawBitSet) (i : Nat) :
    (s.remove i).1 = s.contains i := by
  unfold remove
  by_cases h : s.contains i = true <;> simp [h]

theorem contains_remove (s : RawBitSet) (i j : Nat) :
    (s.remove i).2.contains j
      = if j = i then false else s.contains j := by
  unfold remove
  by_cases h : s.contains i = true
  · simp only [h, if_true]
    by_cases hj : j = i
    · subst hj
      simp only [if_true, contains]
      exact nth_set_self _ _ _ (lt_length_of_nth_true h)
    · simp only [hj, if_false, contains]
      exact nth_set_ne _ _ _ _ hj
  · simp only [h, Bool.false_eq_true, if_false]
    by_cases hj : j = i
    · subst hj
      rw [if_pos rfl]
      simpa using h
    · simp [hj]

theorem len_remove_of_contains {s : RawBitSet} {i : Nat}
    (h : s.contains i = true) : (s.remove i).2.len + 1 = s.len := by
  unfold remove
  simp only [h, if_true, len]
  have hb := countTrue_set s.vec.bits i false (lt_length_of_nth_true h)
  have hn : nth s.vec.bits i = true := h
  rw [hn] at hb
  simp only [if_true, Bool.false_eq_true, if_false] at hb
  omega

theorem contains_clear (s : RawBitSet) (i : Nat) :
    s.clear.contains i = false := by
  unfold clear contains
  exact nth_replicate_false _ _

theorem len_clear (s : RawBitSet) : s.clear.len = 0 := by
  unfold clear len
  exact countTrue_replicate_false _

theorem is_empty_clear (s : RawBitSet) : s.clear.is_empty = true := by
  simp [is_empty, len_clear]

theorem clear_clear (s : RawBitSet) : s.clear.clear = s.clear := by
  simp [clear]

theorem contains_union_with (a b : RawBitSet) (i : Nat) :
    (a.union_with b).contains i = (a.contains i || b.contains i) := by
  unfold union_with contains
  exact nth_zipWithPad _ rfl _ _ _

theorem contains_intersect_with (a b : RawBitSet) (i : Nat) :
    (a.intersect_with b).contains i = (a.contains i && b.contains i) := by
  unfold intersect_with contains
  exact nth_zipWithPad _ rfl _ _ _

theorem contains_difference_with (a b : RawBitSet) (i : Nat) :
    (a.difference_with b).contains i = (a.contains i && !b.contains i) := by
  unfold difference_with contains
  exact nth_zipWithPad _ rfl _ _ _

theorem contains_symmetric_difference_with (a b : RawBitSet) (i : Nat) :
    (a.symmetric_difference_with b).contains i
      = xor (a.contains i) (b.contains i) := by
  unfold symmetric_difference_with contains
  exact nth_zipWithPad _ rfl _ _ _

theorem toList_pairwise (s : RawBitSet) :
    s.toList.Pairwise (· < ·) :=
  List.Pairwise.sublist (List.filter_sublist _)
    (List.pairwise_lt_range _)

theorem mem_toList (s : RawBitSet) (i : Nat) :
    i ∈ s.toList ↔ s.contains i = true := by
  unfold toList
  rw [List.mem_filter, List.mem_range]
  constructor
  · exact fun h => h.2
  · exact fun h => ⟨lt_length_of_nth_true h, h⟩

end RawBitSet

/-! ### The 4-variant test enum (src/bitidx.rs test module, lines 279-296) -/

/-- The enum `Foo { A, B, C, D }` with discriminants A=0, B=1, C=2, D=3. -/
inductive Foo
  | A
  | B
  | C
  | D
deriving DecidableEq

/-- Source `impl Into<BitIdx> for Foo` (lines 282-284): `BitIdx(self as usize)`. -/
def fooIntoBitIdx : Foo → BitIdx
  | .A => ⟨0⟩
  | .B => ⟨1⟩
  | .C => ⟨2⟩
  | .D => ⟨3⟩

open bitidx

/-- The set of the concrete scenario: `Foo::A` and `Foo::C` inserted into
a new set (the `iter` test, lines 298-307). -/
def fooScenario : BitSet Foo :=
  (((BitSet.empty Foo).insert fooIntoBitIdx Foo.A).2.insert fooIntoBitIdx
    Foo.C).2

/-! ### The claims -/

/-- Claim C1: inserting `v` into an empty typed set returns true (newly
added), makes `contains v` true and `len` 1; inserting the same value
again returns false (already present) and `len` stays 1. -/
theorem claim_C1 (T : Type) (into : T → BitIdx) (v : T) :
    ((BitSet.empty T).insert into v).1 = true
    ∧ (((BitSet.empty T).insert into v).2).contains into v = true
    ∧ (((BitSet.empty T).insert into v).2).len = 1
    ∧ ((((BitSet.empty T).insert into v).2).insert into v).1 = false
    ∧ (((((BitSet.empty T).insert into v).2).insert into v).2).len = 1 := by
  have h0 : RawBitSet.empty.contains (into v).val = false := rfl
  have hc : (RawBitSet.empty.insert (into v).val).2.contains (into v).val
      = true := by
    rw [RawBitSet.contains_insert, if_pos rfl]
  have hl : (RawBitSet.empty.insert (into v).val).2.len = 1 := by
    rw [RawBitSet.len_insert_of_not_contains h0]
    rfl
  refine ⟨?_, hc, hl, ?_, ?_⟩
  · show (RawBitSet.empty.insert (into v).val).1 = true
    rw [RawBitSet.insert_fst, h0]
    rfl
  · show ((RawBitSet.empty.insert (into v).val).2.insert (into v).val).1
        = false
    rw [RawBitSet.insert_of_contains hc]
  · show ((RawBitSet.empty.insert (into v).val).2.insert
        (into v).val).2.len = 1
    rw [RawBitSet.insert_of_contains hc]
    exact hl

/-- Claim C2: removing a present value returns true, decrements `len` by
exactly 1 and makes `contains` false; removing an absent value returns
false and leaves the set (hence `len`) unchanged. -/
theorem claim_C2 (T : Type) (into : T → BitIdx) (s : BitSet T) (v : T) :
    (s.contains into v = true →
      (s.remove into v).1 = true
      ∧ (s.remove into v).2.len + 1 = s.len
      ∧ (s.remove into v).2.contains into v = false)
    ∧ (s.contains into v = false →
      (s.remove into v).1 = false ∧ (s.remove into v).2 = s) := by
  constructor
  · intro h
    have h' : s.inner.contains (into v).val = true := h
    refine ⟨?_, ?_, ?_⟩
    · show (s.inner.remove (into v).val).1 = true
      rw [RawBitSet.remove_fst]
      exact h'
    · show (s.inner.remove (into v).val).2.len + 1 = s.inner.len
      exact RawBitSet.len_remove_of_contains h'
    · show (s.inner.remove (into v).val).2.contains (into v).val = false
      rw [RawBitSet.contains_remove, if_pos rfl]
  · intro h
    have h' : s.inner.contains (into v).val = false := h
    have hr := RawBitSet.remove_of_not_contains h'
    constructor
    · show (s.inner.remove (into v).val).1 = false
      rw [hr]
    · show (⟨(s.inner.remove (into v).val).2⟩ : BitSet T) = s
      rw [hr]

/-- Witness for claim C2 at concrete inputs: removing the present value
2 from {2} returns true, removing the absent value 7 from the empty set
returns false. -/
theorem claim_C2_witness :
    ((((BitSet.empty Nat).insert usizeIntoBitIdx 2).2.remove
        usizeIntoBitIdx 2).1 = true)
    ∧ (((BitSet.empty Nat).remove usizeIntoBitIdx 7).1 = false) := by
  constructor
  · exact ((claim_C2 Nat usizeIntoBitIdx
      (((BitSet.empty Nat).insert usizeIntoBitIdx 2).2) 2).1 (by decide)).1
  · exact ((claim_C2 Nat usizeIntoBitIdx (BitSet.empty Nat) 7).2
      (by decide)).1

/-- Claim C3: after `union_with` / `intersect_with` / `difference_with` /
`symmetric_difference_with`, the receiver contains `v` iff `v` was in A
or B / in A and B / in A and not B / in exactly one of A and B; the
second operand is passed by value and never altered (the operations
return only the new receiver). -/
theorem claim_C3 (T : Type) (into : T → BitIdx) (a b : BitSet T) (v : T) :
    (a.union_with b).contains into v
        = (a.contains into v || b.contains into v)
    ∧ (a.intersect_with b).contains into v
        = (a.contains into v && b.contains into v)
    ∧ (a.difference_with b).contains into v
        = (a.contains into v && !(b.contains into v))
    ∧ (a.symmetric_difference_with b).contains into v
        = xor (a.contains into v) (b.contains into v) :=
  ⟨RawBitSet.contains_union_with a.inner b.inner (into v).val,
   RawBitSet.contains_intersect_with a.inner b.inner (into v).val,
   RawBitSet.contains_difference_with a.inner b.inner (into v).val,
   RawBitSet.contains_symmetric_difference_with a.inner b.inner
     (into v).val⟩

/-- Claim C4: iteration yields exactly the set's members — the engine's
raw index list mapped through `T::from(BitIdx(i))` — with the raw
indices strictly ascending and ranging over exactly the members; and in
the concrete 4-variant scenario (insert `A` and `C` into a new set),
iteration yields exactly `[A, C]` for any conversion that maps index 0
to `A` and index 2 to `C` (the only indices reached). -/
theorem claim_C4 :
    (∀ (T : Type) (ofIdx : BitIdx → T) (s : BitSet T),
      s.iterList ofIdx = s.inner.toList.map (fun i => ofIdx ⟨i⟩)
      ∧ s.inner.toList.Pairwise (fun i j => i < j)
      ∧ (∀ i : Nat, i ∈ s.inner.toList ↔ s.inner.contains i = true))
    ∧ (∀ f : BitIdx → Foo, f ⟨0⟩ = Foo.A → f ⟨2⟩ = Foo.C →
        fooScenario.iterList f = [Foo.A, Foo.C]) := by
  constructor
  · intro T ofIdx s
    exact ⟨rfl, RawBitSet.toList_pairwise s.inner,
      fun i => RawBitSet.mem_toList s.inner i⟩
  · intro f h0 h2
    have hl : fooScenario.inner.toList = [0, 2] := by decide
    show fooScenario.inner.toList.map (fun i => f ⟨i⟩) = [Foo.A, Foo.C]
    rw [hl]
    simp [h0, h2]

/-- Witness for claim C4 at a concrete conversion function: the scenario
set iterates to `[A, C]`. -/
theorem claim_C4_witness :
    fooScenario.iterList
      (fun b => if b.val = 0 then Foo.A
        else if b.val = 2 then Foo.C else Foo.B) = [Foo.A, Foo.C] :=
  claim_C4.2
    (fun b => if b.val = 0 then Foo.A
      else if b.val = 2 then Foo.C else Foo.B) rfl rfl

/-- Claim C5: `FromIterator` equals folding `insert` over the sequence
starting from the empty set, and `Extend` equals the same fold starting
from the existing set. -/
theorem claim_C5 (T : Type) (into : T → BitIdx) (s : BitSet T)
    (l : List T) :
    BitSet.from_iter into l
      = l.foldl (fun acc v => (acc.insert into v).2) (BitSet.empty T)
    ∧ s.extendList into l
      = l.foldl (fun acc v => (acc.insert into v).2) s :=
  ⟨rfl, rfl⟩

/-- Claim C6: derived equality holds iff the underlying bit vectors are
equal, and the derived comparison is exactly the bit vector's total
order — lexicographic over the raw storage words — independently of the
phantom logical type `T`. -/
theorem claim_C6 (T : Type) (w : Nat) (a b : BitSet T) :
    (BitSet.beq a b = true ↔ a.inner.vec = b.inner.vec)
    ∧ BitSet.cmp w a b
        = lexCmp ((chunksOf w a.inner.vec.bits).map wordVal)
            ((chunksOf w b.inner.vec.bits).map wordVal) := by
  constructor
  · show (RawBitSet.beq a.inner b.inner && true) = true ↔ _
    rw [Bool.and_true]
    show (a.inner.vec == b.inner.vec) = true ↔ _
    exact beq_iff_eq
  · show (match RawBitSet.cmp w a.inner b.inner with
      | Ordering.eq => Ordering.eq
      | o => o) = _
    have hc : RawBitSet.cmp w a.inner b.inner
        = lexCmp ((chunksOf w a.inner.vec.bits).map wordVal)
            ((chunksOf w b.inner.vec.bits).map wordVal) := rfl
    rw [hc]
    generalize lexCmp ((chunksOf w a.inner.vec.bits).map wordVal)
      ((chunksOf w b.inner.vec.bits).map wordVal) = o
    cases o <;> rfl

/-- Claim C7: after `clear` the set has length 0, is empty and contains
no value; `clear` is idempotent. -/
theorem claim_C7 (T : Type) (into : T → BitIdx) (s : BitSet T) (v : T) :
    s.clear.len = 0
    ∧ s.clear.is_empty = true
    ∧ s.clear.contains into v = false
    ∧ s.clear.clear = s.clear := by
  refine ⟨RawBitSet.len_clear s.inner, RawBitSet.is_empty_clear s.inner,
    RawBitSet.contains_clear s.inner (into v).val, ?_⟩
  show (⟨s.inner.clear.clear⟩ : BitSet T) = ⟨s.inner.clear⟩
  rw [RawBitSet.clear_clear]

/-- Claim C8: the blanket `usize` conversions are mutual inverses: both
`Into<BitIdx>` impls wrap `n` as `BitIdx(n)`, `From<BitIdx>` unwraps,
and both round trips are the identity. -/
theorem claim_C8 (n : Nat) (b : BitIdx) :
    usizeIntoBitIdx n = ⟨n⟩
    ∧ usizeRefIntoBitIdx n = ⟨n⟩
    ∧ usizeFromBitIdx (usizeIntoBitIdx n) = n
    ∧ usizeFromBitIdx (usizeRefIntoBitIdx n) = n
    ∧ usizeIntoBitIdx (usizeFromBitIdx b) = b :=
  ⟨rfl, rfl, rfl, rfl, rfl⟩

/-- Claim C9: wrapping a raw bit vector and unwrapping it again is the
identity, so the membership of every index set in `v` is preserved, and
neither operation touches any logical value (no conversion function is
involved). -/
theorem claim_C9 (T : Type) (v : RawBitVec) :
    (BitSet.from_bit_vec T v).into_bit_vec = v
    ∧ ∀ i : Nat,
        (BitSet.from_bit_vec T v).inner.contains i = nth v.bits i :=
  ⟨rfl, fun _ => rfl⟩

/-- Claim C10: element operations depend only on the raw index: if two
values convert to the same `BitIdx`, then after `insert v1` the set
contains `v2`, inserting `v2` returns false, removing `v2` succeeds and
clears the bit set by `insert v1`. -/
theorem claim_C10 (T : Type) (into : T → BitIdx) (s : BitSet T)
    (v1 v2 : T) (h : into v1 = into v2) :
    ((s.insert into v1).2).contains into v2 = true
    ∧ ((s.insert into v1).2.insert into v2).1 = false
    ∧ ((s.insert into v1).2.remove into v2).1 = true
    ∧ (((s.insert into v1).2.remove into v2).2).contains into v1
        = false := by
  have hv : (into v2).val = (into v1).val := by rw [h]
  have hc : (s.inner.insert (into v1).val).2.contains (into v2).val
      = true := by
    rw [hv, RawBitSet.contains_insert, if_pos rfl]
  refine ⟨hc, ?_, ?_, ?_⟩
  · show ((s.inner.insert (into v1).val).2.insert (into v2).val).1 = false
    rw [RawBitSet.insert_of_contains hc]
  · show ((s.inner.insert (into v1).val).2.remove (into v2).val).1 = true
    rw [RawBitSet.remove_fst]
    exact hc
  · show ((s.inner.insert (into v1).val).2.remove
        (into v2).val).2.contains (into v1).val = false
    rw [RawBitSet.contains_remove, hv, if_pos rfl]

/-- Witness for claim C10 at concrete inputs: `usize` values 5 and 5
convert to the same index, and after inserting the first the set
contains the second. -/
theorem claim_C10_witness :
    (((BitSet.empty Nat).insert usizeIntoBitIdx 5).2).contains
      usizeIntoBitIdx 5 = true :=
  (claim_C10 Nat usizeIntoBitIdx (BitSet.empty Nat) 5 5 rfl).1

end BitSetVerify
